import Mathlib

/-!
# Verification of the gonorth Z-machine interpreter core

Shallow embedding of the core of the `zombiezen/gonorth` Z-machine
interpreter (Go), together with theorems settling the frozen claims about
its specification.  Machine words are modelled as `Nat` with explicit
`% 2 ^ w` reductions; Go's bit masks `x & (2^k - 1)` are written `x % 2^k`,
shifts `x >> k` are written `x / 2^k`, and disjoint bit-ors are written as
sums (each such translation is noted next to the definition).  Fallible Go
code (errors, panics, possibly diverging loops) is embedded with
`Option`/`Except`, with loop fuel where the Go loop has no syntactic
termination measure.
-/

/-! ## Memory model (machine.go)

Go: `memory []byte`, big-endian words.  A byte fetched from memory is
always `< 256`; we bake that into `readB` with `% 256`, and `writeB`
likewise truncates the stored value like Go's `byte(...)` conversions.
-/

/-- A byte of the story memory: `m.memory[a]` (reads out of range modelled
as 0; all claims are settled on in-range addresses). -/
def readB (mem : List Nat) (a : Nat) : Nat := mem.getD a 0 % 256

/-- `m.memory[a] = byte(v)`. -/
def writeB (mem : List Nat) (a v : Nat) : List Nat := mem.set a (v % 256)

/-- Go `loadWord`: `Word(m.memory[a])<<8 | Word(m.memory[a+1])`, the
big-endian 16-bit word at `a` (the two bytes occupy disjoint bit ranges,
so the `|` is a sum). -/
def loadWord (mem : List Nat) (a : Nat) : Nat := readB mem a * 256 + readB mem (a + 1)

/-- Go `storeWord`: `m.memory[a] = byte(w >> 8); m.memory[a+1] = byte(w & 0xff)`. -/
def storeWord (mem : List Nat) (a w : Nat) : List Nat :=
  writeB (writeB mem a (w % 65536 / 256)) (a + 1) (w % 256)

/-- Go `Version`: `m.memory[0]`. -/
def version (mem : List Nat) : Nat := readB mem 0

/-- Reinterpret a 16-bit word as Go's `int16` (two's complement). -/
def toInt16 (w : Nat) : Int :=
  if w % 65536 < 32768 then (w % 65536 : Int) else (w % 65536 : Int) - 65536

/-- Reinterpret a Go `int16` value back as a 16-bit word
(`Word(x)` on an `int16` `x`). -/
def toWord (i : Int) : Nat := (i % 65536).toNat

/-! ## Branch suffixes (north/instruction.go, `branchInfo`)

`branchInfo` is a `uint16`; the argument `b` is the 16-bit suffix value.
-/

/-- Go `branchInfo.Condition`: `b&0x8000 != 0`, written `32768 ≤ b % 65536`. -/
def branchCondition (b : Nat) : Bool := 32768 ≤ b % 65536

/-- Go `branchInfo.Offset`:

```
if b&0x4000 != 0 { return int16(b >> 8 & 0x3f) }
if b&0x2000 != 0 { return int16(0xc000 | b) }
return int16(b & 0x3fff)
```

`b >> 8 & 0x3f` is `b / 256 % 64`; for `b < 2^16`, `0xc000 | b` equals
`0xc000 + b % 0x4000` because the or forces the top two bits. -/
def branchOffset (b : Nat) : Int :=
  if b % 65536 / 16384 % 2 = 1 then ((b % 65536 / 256 % 64 : Nat) : Int)
  else if b % 65536 / 8192 % 2 = 1 then toInt16 (49152 + b % 16384)
  else ((b % 16384 : Nat) : Int)

/-! ## 2OP div and mod (north/exec.go, cases 0x17 and 0x18)

Go: `m.setVariable(storeVariable, Word(int16(ops[0])/int16(ops[1])))` and
likewise with `%`.  Go's `/` on `int16` truncates toward zero
(`Int.tdiv`) and `%` has the sign of the dividend (`Int.tmod`); dividing
by zero is a run-time panic, embedded as `none` (no value is stored). -/

/-- The value stored by the 2OP `div` opcode, or `none` when the Go code
panics (divisor zero). -/
def divOp (a b : Nat) : Option Nat :=
  if toInt16 b = 0 then none
  else some (toWord (Int.tdiv (toInt16 a) (toInt16 b)))

/-- The value stored by the 2OP `mod` opcode, or `none` when the Go code
panics (divisor zero). -/
def modOp (a b : Nat) : Option Nat :=
  if toInt16 b = 0 then none
  else some (toWord (Int.tmod (toInt16 a) (toInt16 b)))

/-! ## The random opcode (north/exec.go case 0x7; north/machine.go)

Go:

```
if ops[0] == 0 { m.seed(); m.setVariable(in.storeVariable, 0) }
else           { m.setVariable(in.storeVariable, m.random(ops[0])) }
```

with `func (m *Machine) random(s Word) Word { return Word(m.rand.Uint32()%uint32(s) + 1) }`.
`next` stands for the value `m.rand.Uint32()` would produce (`< 2^32`);
the pair returned is (whether `m.seed()` was called, the word stored to
the store variable). -/
def randomOpcode (next : Nat) (s : Nat) : Bool × Nat :=
  if s % 65536 = 0 then (true, 0)
  else (false, (next % 4294967296) % (s % 65536) + 1)

/-! ## Claim theorems: branch suffix, div/mod, random -/

/-- C7: for every 16-bit `branchInfo` value `b`: bit 15 is the branch
condition; when bit 14 is set the offset is the unsigned value of bits
13–8 (in 0..63); when bit 14 is clear the offset is the sign-extended
value of the low 14 bits; `branchInfo(0x7F00)` has condition `false` and
offset 63, and `branchInfo(0x3FFF)` has offset −1. -/
theorem branchInfo_layout (b : Nat) (hb : b < 65536) :
    (branchCondition b = true ↔ b / 32768 % 2 = 1)
    ∧ (b / 16384 % 2 = 1 →
        branchOffset b = ((b / 256 % 64 : Nat) : Int) ∧ b / 256 % 64 ≤ 63)
    ∧ (b / 16384 % 2 = 0 →
        branchOffset b =
          (if b % 16384 < 8192 then ((b % 16384 : Nat) : Int)
           else ((b % 16384 : Nat) : Int) - 16384))
    ∧ branchCondition 0x7F00 = false ∧ branchOffset 0x7F00 = 63
    ∧ branchOffset 0x3FFF = -1 := by
  refine ⟨?_, ?_, ?_, by decide, by decide, by decide⟩
  · simp only [branchCondition, decide_eq_true_eq]
    omega
  · intro h14
    simp only [branchOffset]
    rw [if_pos (by omega)]
    exact ⟨by omega, by omega⟩
  · intro h14
    simp only [branchOffset, toInt16]
    rw [if_neg (by omega)]
    by_cases h13 : b % 65536 / 8192 % 2 = 1
    · rw [if_pos h13, if_neg (by omega), if_neg (by omega)]
      omega
    · rw [if_neg h13, if_pos (by omega)]

/-- Witness for `branchInfo_layout` at `b = 0x7F00`. -/
theorem branchInfo_layout_witness :
    branchCondition 0x7F00 = false ∧ branchOffset 0x7F00 = 63 :=
  ⟨(branchInfo_layout 0x7F00 (by decide)).2.2.2.1,
   (branchInfo_layout 0x7F00 (by decide)).2.2.2.2.1⟩

/-- C6: the 2OP `div`/`mod` opcodes interpret both operands as signed
16-bit values, and a divisor whose 16-bit value is 0 is fatal: no
quotient or remainder is stored (`none`).  The concrete evaluations pin
the signed (not unsigned) semantics: `0xffff / 2` is `-1 / 2 = 0` and
`0xffff % 2` is `-1 % 2 = -1 = 0xffff`, while unsigned division would
give `32767` and `1`. -/
theorem div_mod_signed_divisor_zero_fatal (a b : Nat) :
    (divOp a b = none ↔ b % 65536 = 0)
    ∧ (modOp a b = none ↔ b % 65536 = 0)
    ∧ (toInt16 b ≠ 0 →
        divOp a b = some (toWord (Int.tdiv (toInt16 a) (toInt16 b)))
        ∧ modOp a b = some (toWord (Int.tmod (toInt16 a) (toInt16 b))))
    ∧ divOp 65535 2 = some 0 ∧ modOp 65535 2 = some 65535 := by
  have hz : toInt16 b = 0 ↔ b % 65536 = 0 := by
    simp only [toInt16]
    split <;> omega
  refine ⟨?_, ?_, ?_, by decide, by decide⟩
  · simp only [divOp]
    split <;> simp_all
  · simp only [modOp]
    split <;> simp_all
  · intro h
    simp [divOp, modOp, if_neg h]

/-- C4 counterexample: the operand `0xFC18` has signed value −1000, so the
claim requires the RNG to be reseeded; the code instead treats the operand
as the unsigned range 64536 and stores `next % 64536 + 1` without
reseeding (first component `false`). -/
theorem random_negative_not_reseeded :
    toInt16 64536 = -1000 ∧ randomOpcode 7 64536 = (false, 8) := by decide

/-- C4 (amended): `random(0)` reseeds the RNG and stores 0; for every
nonzero 16-bit operand `s` — including operands whose signed value is
negative, which get no special treatment — it does not reseed and stores
`next % s + 1`, a value in `[1, s]` (`s` read as unsigned); and for a
positive signed `s` every value of `[1, s]` is reached by some RNG
output. -/
theorem random_amended (next s : Nat) (hs : s < 65536) (hnext : next < 4294967296) :
    randomOpcode next 0 = (true, 0)
    ∧ (s ≠ 0 → randomOpcode next s = (false, next % s + 1)
        ∧ 1 ≤ next % s + 1 ∧ next % s + 1 ≤ s)
    ∧ (0 < toInt16 s → ∀ v, 1 ≤ v → v ≤ s →
        ∃ nx, nx < 4294967296 ∧ randomOpcode nx s = (false, v)) := by
  refine ⟨rfl, ?_, ?_⟩
  · intro h
    have h1 : s % 65536 = s := Nat.mod_eq_of_lt hs
    have h2 : next % 4294967296 = next := Nat.mod_eq_of_lt hnext
    have hlt : next % s < s := Nat.mod_lt next (by omega)
    refine ⟨?_, by omega, by omega⟩
    simp only [randomOpcode, h1, h2, if_neg h]
  · intro hpos v hv1 hv2
    have hs0 : s ≠ 0 := by
      intro h0
      rw [h0] at hpos
      simp [toInt16] at hpos
    refine ⟨v - 1, by omega, ?_⟩
    have h1 : s % 65536 = s := Nat.mod_eq_of_lt hs
    have h2 : (v - 1) % 4294967296 = v - 1 := Nat.mod_eq_of_lt (by omega)
    have h3 : (v - 1) % s = v - 1 := Nat.mod_eq_of_lt (by omega)
    have h4 : v - 1 + 1 = v := by omega
    simp only [randomOpcode, h1, h2, h3, h4, if_neg hs0]

/-- Witness for `random_amended` at `next = 7`, `s = 10`. -/
theorem random_amended_witness :
    randomOpcode 7 10 = (false, 8) ∧ 1 ≤ 8 ∧ 8 ≤ 10 := by
  have h := (random_amended 7 10 (by decide) (by decide)).2.1 (by decide)
  exact ⟨h.1, h.2⟩

/-! ## Step and its deferred PC rollback (north/exec.go, `Step`)

Go:

```
func (m *Machine) Step() (err error) {
    defer func(pc Address) {
        if err != nil {
            m.currStackFrame().PC = pc
            ...
        }
    }(m.PC())
    ...decode and dispatch...
}
```

The deferred rollback is parametric in whatever the body of `Step`
(decoding plus opcode dispatch) did to the machine: Go's `defer` fires
after the body has produced its final state and error, so we embed the
body as an arbitrary state transformer `inner` and the wrapper `stepWith`
exactly as the defer behaves.  The stack grows by `append`, so the
current frame (`m.stack[len(m.stack)-1]`) is the last list element.
-/

/-- A routine call's data (north/machine.go `stackFrame`). -/
structure Frame where
  pc : Nat
  locals : List Nat
  stack : List Nat
  store : Bool
  storeVariable : Nat
  narg : Nat
deriving DecidableEq

instance : Inhabited Frame := ⟨⟨0, [], [], false, 0, 0⟩⟩

/-- The machine state visible to `Step`'s rollback: the memory image and
the call stack (last frame = current). -/
structure MachineState where
  memory : List Nat
  frames : List Frame
deriving DecidableEq

/-- `m.currStackFrame()`: the last stack frame. -/
def currFrame (m : MachineState) : Frame := m.frames.getLastD default

/-- Replace the `pc` of the last frame (`m.currStackFrame().PC = pc`). -/
def setLastPC : List Frame → Nat → List Frame
  | [], _ => []
  | [f], pc => [{ f with pc := pc }]
  | f :: g :: rest, pc => f :: setLastPC (g :: rest) pc

/-- `m.currStackFrame().PC = pc` on the whole machine state. -/
def setCurrPC (m : MachineState) (pc : Nat) : MachineState :=
  { m with frames := setLastPC m.frames pc }

/-- `Step`'s defer wrapper: save the entry PC, run the body (`inner`,
i.e. decode + dispatch, producing a final state and an optional error);
on error, restore the current frame's PC to the saved value and keep
every other effect of the body. -/
def stepWith {E : Type} (inner : MachineState → MachineState × Option E)
    (m : MachineState) : MachineState × Option E :=
  let pc := (currFrame m).pc
  match inner m with
  | (m2, none) => (m2, none)
  | (m2, some e) => (setCurrPC m2 pc, some e)

theorem setLastPC_length (l : List Frame) (pc : Nat) :
    (setLastPC l pc).length = l.length := by
  induction l with
  | nil => rfl
  | cons f rest ih =>
    cases rest with
    | nil => rfl
    | cons g rest2 => simpa [setLastPC] using ih

theorem setLastPC_getLastD (l : List Frame) (pc : Nat) (d : Frame) (h : l ≠ []) :
    (setLastPC l pc).getLastD d = { l.getLastD d with pc := pc } := by
  induction l generalizing d with
  | nil => exact absurd rfl h
  | cons f rest ih =>
    cases rest with
    | nil => rfl
    | cons g rest2 =>
      have h2 : g :: rest2 ≠ [] := by simp
      simp only [setLastPC]
      rw [List.getLastD_cons, List.getLastD_cons]
      exact ih f h2

theorem setLastPC_getD (l : List Frame) (pc : Nat) (k : Nat)
    (h : k + 1 < l.length) :
    (setLastPC l pc).getD k default = l.getD k default := by
  induction l generalizing k with
  | nil => rfl
  | cons f rest ih =>
    cases rest with
    | nil => simp at h
    | cons g rest2 =>
      cases k with
      | zero => rfl
      | succ k2 =>
        simp only [setLastPC, List.getD_cons_succ]
        exact ih k2 (by simpa using h)

/-- C5: whenever `Step` returns an error, the current frame's program
counter in the final state equals the PC saved on entry (the address the
instruction started at), while every other component of the state — the
memory image, the number of frames, all frames below the top, and the
top frame's fields other than its PC — is exactly what the body of
`Step` (decode + dispatch) left behind: side effects are not rolled
back. -/
theorem step_error_rolls_back_pc_only {E : Type}
    (inner : MachineState → MachineState × Option E) (m m2 : MachineState)
    (e : E) (hrun : stepWith inner m = (m2, some e))
    (hne : (inner m).1.frames ≠ []) :
    (currFrame m2).pc = (currFrame m).pc
    ∧ m2.memory = (inner m).1.memory
    ∧ m2.frames.length = (inner m).1.frames.length
    ∧ (∀ k, k + 1 < m2.frames.length →
        m2.frames.getD k default = (inner m).1.frames.getD k default)
    ∧ currFrame m2 = { currFrame (inner m).1 with pc := (currFrame m).pc }
    ∧ (inner m).2 = some e := by
  have hm2 : m2 = setCurrPC (inner m).1 ((currFrame m).pc) ∧ (inner m).2 = some e := by
    unfold stepWith at hrun
    rcases h : inner m with ⟨m3, err⟩
    rw [h] at hrun
    cases err with
    | none => simp at hrun
    | some e2 =>
      simp only at hrun
      rw [Prod.mk.injEq] at hrun
      exact ⟨hrun.1.symm, by rw [hrun.2]⟩
  obtain ⟨hm2, herr⟩ := hm2
  subst hm2
  have hlast : currFrame (setCurrPC (inner m).1 ((currFrame m).pc))
      = { currFrame (inner m).1 with pc := (currFrame m).pc } := by
    simp only [currFrame, setCurrPC]
    exact setLastPC_getLastD _ _ _ hne
  refine ⟨?_, rfl, setLastPC_length _ _, ?_, hlast, herr⟩
  · rw [hlast]
  · intro k hk
    simp only [setCurrPC] at hk ⊢
    exact setLastPC_getD _ _ k (by simpa [setLastPC_length] using hk)

/-- Witness for `step_error_rolls_back_pc_only`: a body that bumps the
PC, writes memory, pushes an eval-stack word and then fails; the wrapper
restores the PC while the memory write survives. -/
theorem step_error_rolls_back_pc_only_witness :
    (currFrame (stepWith (E := Unit)
        (fun _ => ({ memory := [9, 2],
                     frames := [{ pc := 77, locals := [], stack := [5],
                                  store := false, storeVariable := 0, narg := 0 }] },
                   some ()))
        { memory := [1, 2],
          frames := [{ pc := 3, locals := [], stack := [],
                       store := false, storeVariable := 0, narg := 0 }] }).1).pc = 3
    ∧ (stepWith (E := Unit)
        (fun _ => ({ memory := [9, 2],
                     frames := [{ pc := 77, locals := [], stack := [5],
                                  store := false, storeVariable := 0, narg := 0 }] },
                   some ()))
        { memory := [1, 2],
          frames := [{ pc := 3, locals := [], stack := [],
                       store := false, storeVariable := 0, narg := 0 }] }).1.memory = [9, 2] := by
  have h := step_error_rolls_back_pc_only (E := Unit)
    (fun _ => ({ memory := [9, 2],
                 frames := [{ pc := 77, locals := [], stack := [5],
                              store := false, storeVariable := 0, narg := 0 }] },
               some ()))
    { memory := [1, 2],
      frames := [{ pc := 3, locals := [], stack := [],
                   store := false, storeVariable := 0, narg := 0 }] }
    (setCurrPC { memory := [9, 2],
                 frames := [{ pc := 77, locals := [], stack := [5],
                              store := false, storeVariable := 0, narg := 0 }] } 3)
    () rfl (by simp)
  exact ⟨h.1, h.2.1⟩

/-! ## Object tree (src/unnamed/part_005; north/exec.go `get_prop_len`)

`propLoc` walks an object's property list; `pb` is the object's
`PropertyBase`.  The Go loops carry no syntactic bound, so they take fuel
and return `none` on exhaustion.  Go source, v1–3 branch:

```
for m.memory[a] != 0 {
    size, n := m.memory[a]>>5+1, m.memory[a]&0x1f
    a++
    if n == i { return a, size }
    a += Address(size)
}
```

v4+ branch (note: the source masks with `0x1f` and applies the
0-means-64 rule to `n`, the property number — kept verbatim):

```
for {
    var size, n uint8
    if m.memory[a]&0x80 == 0 {
        size, n = m.memory[a]>>5+1, m.memory[a]&0x1f
        a++
    } else {
        size, n = m.memory[a+1]&0x1f, m.memory[a]&0x1f
        if n == 0 { n = 64 }
        a += 2
    }
    if n == 0 { break } else if n == i { return a, size }
    a += Address(size)
}
```
-/

/-- The v1–3 property-walk loop of `propLoc`. -/
def propLocLoop3 (mem : List Nat) (i : Nat) : Nat → Nat → Option (Nat × Nat)
  | _, 0 => none
  | a, fuel + 1 =>
    if readB mem a = 0 then some (0, 0)
    else
      let size := readB mem a / 32 + 1
      let n := readB mem a % 32
      if n = i then some (a + 1, size)
      else propLocLoop3 mem i (a + 1 + size) fuel

/-- The v4+ property-walk loop of `propLoc`. -/
def propLocLoop4 (mem : List Nat) (i : Nat) : Nat → Nat → Option (Nat × Nat)
  | _, 0 => none
  | a, fuel + 1 =>
    if readB mem a < 128 then
      let size := readB mem a / 32 + 1
      let n := readB mem a % 32
      if n = 0 then some (0, 0)
      else if n = i then some (a + 1, size)
      else propLocLoop4 mem i (a + 1 + size) fuel
    else
      let size := readB mem (a + 1) % 32
      let n0 := readB mem a % 32
      let n := if n0 = 0 then 64 else n0
      if n = i then some (a + 2, size)
      else propLocLoop4 mem i (a + 2 + size) fuel

/-- Go `object.propLoc`: address of property `i`'s data and its size, or
`(0, 0)` when the object does not have property `i`.  The walk starts
past the short name: `a := PropertyBase + 1 + mem[PropertyBase]*2`. -/
def propLoc (mem : List Nat) (pb i fuel : Nat) : Option (Nat × Nat) :=
  if i = 0 then some (0, 0)
  else
    let a := pb + 1 + readB mem pb * 2
    if version mem ≤ 3 then propLocLoop3 mem i a fuel
    else propLocLoop4 mem i a fuel

/-- Go `object.NextProperty` (the inner `Option` is `none` on the
"trying to find next on non-existent property" error):

```
if i == 0 {
    a := o.PropertyBase + 1 + Address(m.memory[o.PropertyBase])*2
    return m.memory[a] & 0x1f, nil
}
a, size := o.propLoc(m, i)
if a == 0 { return 0, errors.New(...) }
a += Address(size)
return m.memory[a+Address(size)] & 0x1f, nil
```

(kept verbatim: after `a += size` the source reads `m.memory[a+size]`,
i.e. the byte at `propLoc + 2*size`). -/
def nextProperty (mem : List Nat) (pb i fuel : Nat) : Option (Option Nat) :=
  if i = 0 then
    let a := pb + 1 + readB mem pb * 2
    some (some (readB mem a % 32))
  else
    match propLoc mem pb i fuel with
    | none => none
    | some (a, size) =>
      if a = 0 then some none
      else some (some (readB mem (a + size + size) % 32))

/-- Go `get_prop_len` (north/exec.go, 1OP case 0x4); `a` is the property
data address handed to the opcode:

```
if m.Version() <= 3 { size = m.memory[a-1]>>5 + 1 }
else if m.memory[a-1]&0x80 == 0 { size = m.memory[a-1]>>6 + 1 }
else { size = m.memory[a-1] & 0x3f; if size == 0 { size = 64 } }
```
-/
def getPropLen (mem : List Nat) (a : Nat) : Nat :=
  if version mem ≤ 3 then readB mem (a - 1) / 32 + 1
  else if readB mem (a - 1) < 128 then readB mem (a - 1) / 64 + 1
  else if readB mem (a - 1) % 64 = 0 then 64
  else readB mem (a - 1) % 64

/-- An object record (part_005 `object`; `Attributes [6]byte`). -/
structure ZObject where
  attributes : List Nat
  parent : Nat
  sibling : Nat
  child : Nat
  propertyBase : Nat
deriving DecidableEq

/-- Go `objectTableAddress`: header word at `0x0a`. -/
def objectTableAddress (mem : List Nat) : Nat := loadWord mem 0xa

/-- Byte offset of object `i`'s record from the object table: Go computes
`(i-1)*9` (or `*14`) in 16-bit `Word` arithmetic. -/
def objOffset (i entrySize : Nat) : Nat := (i + 65536 - 1) % 65536 * entrySize % 65536

/-- Go `loadObject` (part_005): v1–3 records are 9 bytes at
`table + 31*2`, single-byte links; v4+ records are 14 bytes at
`table + 63*2`, word links.  v1–3 fills only the first 4 attribute
bytes of the 6-byte array. -/
def loadObject (mem : List Nat) (i : Nat) : ZObject :=
  if version mem ≤ 3 then
    let base := objectTableAddress mem + 31 * 2 + objOffset i 9
    { attributes := [readB mem base, readB mem (base + 1), readB mem (base + 2),
                     readB mem (base + 3), 0, 0],
      parent := readB mem (base + 4),
      sibling := readB mem (base + 5),
      child := readB mem (base + 6),
      propertyBase := loadWord mem (base + 7) }
  else
    let base := objectTableAddress mem + 63 * 2 + objOffset i 14
    { attributes := [readB mem base, readB mem (base + 1), readB mem (base + 2),
                     readB mem (base + 3), readB mem (base + 4), readB mem (base + 5)],
      parent := loadWord mem (base + 6),
      sibling := loadWord mem (base + 8),
      child := loadWord mem (base + 10),
      propertyBase := loadWord mem (base + 12) }

/-- Write a list of attribute bytes starting at `base` (Go `copy`). -/
def writeBytes (mem : List Nat) (base : Nat) : List Nat → List Nat
  | [] => mem
  | v :: rest => writeBytes (writeB mem base v) (base + 1) rest

/-- Go `storeObject` (part_005). -/
def storeObject (mem : List Nat) (i : Nat) (o : ZObject) : List Nat :=
  if version mem ≤ 3 then
    let base := objectTableAddress mem + 31 * 2 + objOffset i 9
    let m1 := writeBytes mem base (o.attributes.take 4)
    let m2 := writeB m1 (base + 4) o.parent
    let m3 := writeB m2 (base + 5) o.sibling
    let m4 := writeB m3 (base + 6) o.child
    storeWord m4 (base + 7) o.propertyBase
  else
    let base := objectTableAddress mem + 63 * 2 + objOffset i 14
    let m1 := writeBytes mem base (o.attributes.take 6)
    let m2 := storeWord m1 (base + 6) o.parent
    let m3 := storeWord m2 (base + 8) o.sibling
    let m4 := storeWord m3 (base + 10) o.child
    storeWord m4 (base + 12) o.propertyBase

/-- The sibling-chain search in Go `removeObject`:

```
j := par.Child
curr := m.loadObject(j)
for curr.Sibling != i { j = curr.Sibling; curr = m.loadObject(j) }
```

Returns `(j, curr)`; `none` when the fuel runs out (the Go loop would
run forever or crash on a broken chain). -/
def findPrevSibling (mem : List Nat) (i : Nat) : Nat → Nat → Option (Nat × ZObject)
  | _, 0 => none
  | j, fuel + 1 =>
    let curr := loadObject mem j
    if curr.sibling = i then some (j, curr)
    else findPrevSibling mem i curr.sibling fuel

/-- Go `removeObject` (part_005):

```
obj := m.loadObject(i)
if obj.Parent != 0 {
    par := m.loadObject(obj.Parent)
    if par.Child == i {
        par.Child = obj.Sibling
        m.storeObject(obj.Parent, par)
    } else {
        j := par.Child ... (findPrevSibling) ...
        curr.Sibling = obj.Sibling
        m.storeObject(j, curr)
    }
    obj.Parent = 0
    m.storeObject(i, obj)
}
```
-/
def removeObject (mem : List Nat) (i fuel : Nat) : Option (List Nat) :=
  let obj := loadObject mem i
  if obj.parent = 0 then some mem
  else
    let par := loadObject mem obj.parent
    if par.child = i then
      let mem2 := storeObject mem obj.parent { par with child := obj.sibling }
      some (storeObject mem2 i { obj with parent := 0 })
    else
      match findPrevSibling mem i par.child fuel with
      | none => none
      | some (j, curr) =>
        let mem2 := storeObject mem j { curr with sibling := obj.sibling }
        some (storeObject mem2 i { obj with parent := 0 })

/-! ## Claim theorems: object properties and tree surgery -/

/-- C1 (failing input): a version-4 story in which object property lists
start at `PropertyBase = 1` (empty short name) and the list holds one
property with the two-byte header `0x81 0xA1`.  Under the claim (and the
Z-machine standard), the header encodes property number `0x81 % 64 = 1`
with data size `0xA1 % 64 = 33`; `get_prop_len` on the data address 4
indeed computes 33, but `propLoc` masks the size byte with `0x1f` and
applies the 0-means-64 rule to the property *number*, deriving size 1 —
so the length `property_slice` derives (1) differs from `get_prop_len`
(33).  On a second story whose header byte is `0xA1` (property number 33
per the claim), `propLoc` cannot find property 33 at all and instead
finds the entry under number `0xA1 % 32 = 1`. -/
theorem propLoc_v4_two_byte_header_bug :
    propLoc [4, 0, 0x81, 0xA1, 0x55, 0, 0, 0] 1 1 8 = some (4, 1)
    ∧ getPropLen [4, 0, 0x81, 0xA1, 0x55, 0, 0, 0] 4 = 33
    ∧ (1 : Nat) ≠ 33
    ∧ propLoc [4, 0, 0xA1, 0x81, 0x55, 0, 0, 0] 1 33 8 = some (0, 0)
    ∧ propLoc [4, 0, 0xA1, 0x81, 0x55, 0, 0, 0] 1 1 8 = some (4, 1) := by
  refine ⟨by decide, by decide, by decide, ?_, by decide⟩
  decide

/-- C2 (failing input): a version-3 story, property list at
`PropertyBase = 1` containing property 5 (size 1, data byte `0xAA` at
address 3) followed by property 3 (size 1, data byte `0x1f`) and the 0
terminator.  `next_property(5)` should return 3, the number stored in
the header immediately after property 5's data (byte 4); the code
advances by `size` twice and instead reads byte 5 — property 3's *data*
byte — returning 31.  The first-property (`i = 0`) and missing-property
(error) cases behave as the claim says. -/
theorem nextProperty_skips_by_double_size :
    nextProperty [3, 0, 0x05, 0xAA, 0x03, 0x1f, 0, 0] 1 5 8 = some (some 31)
    ∧ readB [3, 0, 0x05, 0xAA, 0x03, 0x1f, 0, 0] 4 % 32 = 3
    ∧ (31 : Nat) ≠ 3
    ∧ nextProperty [3, 0, 0x05, 0xAA, 0x03, 0x1f, 0, 0] 1 0 8 = some (some 5)
    ∧ nextProperty [3, 0, 0x05, 0xAA, 0x03, 0x1f, 0, 0] 1 7 8 = some none := by
  refine ⟨by decide, by decide, by decide, by decide, ?_⟩
  decide

/-- C10: `removeObject(i)` on an object whose parent pointer is 0 leaves
memory entirely unchanged (no store is performed); only when the parent
is non-zero does it splice `i` out of the parent's child chain (shown
here for the first-child case, where the walk performs no sibling-loop)
and clear `i`'s parent. -/
theorem removeObject_parent_zero_no_write (mem : List Nat) (i fuel : Nat) :
    ((loadObject mem i).parent = 0 → removeObject mem i fuel = some mem)
    ∧ ((loadObject mem i).parent ≠ 0 →
        (loadObject mem ((loadObject mem i).parent)).child = i →
        removeObject mem i fuel =
          some (storeObject
                  (storeObject mem ((loadObject mem i).parent)
                    { loadObject mem ((loadObject mem i).parent) with
                        child := (loadObject mem i).sibling })
                  i { loadObject mem i with parent := 0 })) := by
  constructor
  · intro h
    simp only [removeObject]
    rw [if_pos h]
  · intro h hc
    simp only [removeObject]
    rw [if_neg h, if_pos hc]

/-- A version-3 story whose object 1 has parent pointer 0 (every record
byte reads 0). -/
def memParentZero : List Nat := (List.replicate 12 0).set 0 3

/-- A version-3 story (object table at 0, records at 62 + 9·(i−1)):
object 1 has parent 2 and sibling 5; object 2's first child is 1. -/
def memFirstChild : List Nat :=
  ((((List.replicate 80 0).set 0 3).set 66 2).set 67 5).set 77 1

/-- Witness for `removeObject_parent_zero_no_write`: on `memParentZero`
the removal returns the memory unchanged; on `memFirstChild` it splices
object 1 out (object 2's child byte becomes 5, object 1's parent byte
becomes 0). -/
theorem removeObject_parent_zero_no_write_witness :
    removeObject memParentZero 1 4 = some memParentZero
    ∧ removeObject memFirstChild 1 4 =
        some (storeObject
                (storeObject memFirstChild ((loadObject memFirstChild 1).parent)
                  { loadObject memFirstChild ((loadObject memFirstChild 1).parent) with
                      child := (loadObject memFirstChild 1).sibling })
                1 { loadObject memFirstChild 1 with parent := 0 }) := by
  constructor
  · exact (removeObject_parent_zero_no_write memParentZero 1 4).1 (by decide)
  · exact (removeObject_parent_zero_no_write memFirstChild 1 4).2 (by decide) (by decide)

/-! ## Z-character reader (src/zscii.go, `zcharReader`)

Go state: the underlying byte stream, the 2-byte `pair` buffer, the
cursor `i` (an `int`: 0 before a word, 1/2 inside one, −1 after a
terminating word) and a sticky error.  `ReadByte`:

```
case 0: read a full 2-byte word (EOF → ErrUnexpectedEOF; a 1-byte
        partial read also stores ErrUnexpectedEOF but still returns the
        first character); return pair[0]>>2 & 0x1f
case 1: return pair[0]&0x03<<3 | pair[1]>>5
case 2: i = (pair[0]&0x80 == 0) ? 0 : -1; return pair[1] & 0x1f
default: the sticky error becomes io.EOF
```

`pair[0]&0x03<<3 | pair[1]>>5` combines disjoint bit ranges, written
`p0 % 4 * 8 + p1 / 32`.
-/

/-- The two error values a `zcharReader` can surface. -/
inductive ZErr where
  | eof
  | unexpectedEOF
deriving DecidableEq

/-- Go `zcharReader` state. -/
structure ZCharReader where
  input : List Nat
  p0 : Nat
  p1 : Nat
  i : Int
  err : Option ZErr
deriving DecidableEq

/-- A fresh reader over a byte stream (`&zcharReader{r: r}`). -/
def zcharNew (bs : List Nat) : ZCharReader :=
  { input := bs, p0 := 0, p1 := 0, i := 0, err := none }

/-- Go `zcharReader.ReadByte`. -/
def zcharReadByte (z : ZCharReader) : Except ZErr Nat × ZCharReader :=
  match z.err with
  | some e => (.error e, z)
  | none =>
    if z.i = 0 then
      match z.input with
      | [] => (.error .unexpectedEOF, { z with err := some .unexpectedEOF })
      | [b0] => (.ok (b0 % 256 / 4 % 32),
                 { z with input := [], p0 := b0 % 256, err := some .unexpectedEOF })
      | b0 :: b1 :: rest => (.ok (b0 % 256 / 4 % 32),
                             { z with input := rest, p0 := b0 % 256, p1 := b1 % 256, i := 1 })
    else if z.i = 1 then
      (.ok (z.p0 % 4 * 8 + z.p1 / 32), { z with i := 2 })
    else if z.i = 2 then
      (.ok (z.p1 % 32), { z with i := if z.p0 < 128 then 0 else -1 })
    else
      (.error .eof, { z with err := some .eof })

/-- Read repeatedly (up to `fuel` times), collecting the produced
Z-characters until the first error. -/
def zcharRun (z : ZCharReader) : Nat → List Nat × Option ZErr
  | 0 => ([], none)
  | fuel + 1 =>
    match zcharReadByte z with
    | (.ok b, z2) =>
      let r := zcharRun z2 fuel
      (b :: r.1, r.2)
    | (.error e, _) => ([], some e)

/-- C8: the reader yields exactly three 5-bit values — bits 14–10, 9–5
and 4–0 of the consumed 16-bit word `w = 256*b0 + b1`; when the word's
top bit is set, the fourth read is a clean `eof` (not an error about
truncation); on the empty stream the first read is `unexpectedEOF` with
zero characters produced; and `[0x94, 0xA5]` yields `[5, 5, 5]` then
`eof`. -/
theorem zcharReader_three_per_word (b0 b1 : Nat) (rest : List Nat)
    (h0 : b0 < 256) (h1 : b1 < 256) :
    (zcharRun (zcharNew (b0 :: b1 :: rest)) 3).1 =
      [(256 * b0 + b1) / 1024 % 32, (256 * b0 + b1) / 32 % 32, (256 * b0 + b1) % 32]
    ∧ (128 ≤ b0 →
        zcharRun (zcharNew (b0 :: b1 :: rest)) 4 =
          ([(256 * b0 + b1) / 1024 % 32, (256 * b0 + b1) / 32 % 32, (256 * b0 + b1) % 32],
           some .eof))
    ∧ zcharRun (zcharNew []) 1 = ([], some .unexpectedEOF)
    ∧ zcharRun (zcharNew [0x94, 0xA5]) 4 = ([5, 5, 5], some .eof) := by
  have e0 : b0 % 256 = b0 := Nat.mod_eq_of_lt h0
  have e1 : b1 % 256 = b1 := Nat.mod_eq_of_lt h1
  refine ⟨?_, ?_, by decide, by decide⟩
  · simp only [zcharRun, zcharNew, zcharReadByte, e0, e1]
    norm_num
    refine ⟨by omega, by omega, by omega⟩
  · intro hb
    have h128 : ¬ (b0 < 128) := by omega
    simp [zcharRun, zcharNew, zcharReadByte, e0, e1, h128]
    refine ⟨by omega, by omega, by omega⟩

/-- Witness for `zcharReader_three_per_word` at `[0x94, 0xA5]`. -/
theorem zcharReader_three_per_word_witness :
    (zcharRun (zcharNew [0x94, 0xA5]) 3).1 = [5, 5, 5]
    ∧ zcharRun (zcharNew [0x94, 0xA5]) 4 = ([5, 5, 5], some .eof) := by
  have h := zcharReader_three_per_word 0x94 0xA5 [] (by decide) (by decide)
  exact ⟨h.1, h.2.1 (by decide)⟩

/-! ## ZSCII decoder (src/zscii.go, `zsciiDecoder`)

The outer decoder pulls Z-characters from a `zcharReader`, keeps a queue
`abbv` of runes from a pending abbreviation and a sticky error; the
abbreviation expander (Go `Unabbreviater`, an optional capability) is
passed as an `Option` function.  Runes are represented by their code
points.  Go panics (indexing an empty expansion, or
`alphaset[alphabet][z-6]` with `z < 6` after a shift, where the byte
subtraction wraps to a huge index) are embedded as dedicated errors. -/

/-- Decoder-level errors: the two source errors, `ErrAbbrev`,
`ZSCIIDecodeError{code}`, and the two spots where the Go code would
panic. -/
inductive DecErr where
  | srcEof
  | srcUnexpectedEOF
  | abbrevNotAllowed
  | zsciiDecode (code : Nat)
  | panicEmptyExpansion
  | panicIndex
deriving DecidableEq

/-- How a `zcharReader` error surfaces through `ReadRune` (unchanged). -/
def ofZErr : ZErr → DecErr
  | .eof => .srcEof
  | .unexpectedEOF => .srcUnexpectedEOF

/-- Alphabet row A0 (`a..z`). -/
def alphaRow0 : List Nat := (List.range 26).map (fun k => 97 + k)

/-- Alphabet row A1 (`A..Z`). -/
def alphaRow1 : List Nat := (List.range 26).map (fun k => 65 + k)

/-- Alphabet row A2 (`\0 \n 0-9 . , ! ? _ # ' " / \ - : ( )`); slots 0
and 1 are also overwritten to `0` and newline by `NewZSCIIDecoder`. -/
def alphaRow2 : List Nat :=
  [0, 10, 48, 49, 50, 51, 52, 53, 54, 55, 56, 57,
   46, 44, 33, 63, 95, 35, 39, 34, 47, 92, 45, 58, 40, 41]

/-- `zd.alphaset[alphabet][idx]` for the standard alphabet set. -/
def alphaLookup (alphabet idx : Nat) : Nat :=
  (([alphaRow0, alphaRow1, alphaRow2].getD alphabet []).getD idx 0)

/-- Go `zsciiLookup` (rune result as a code point; `'\n'` is 10). -/
def zsciiLookup (code : Nat) (output : Bool) : Except DecErr Nat :=
  if code = 0 ∧ output then .ok 0
  else if code = 13 then .ok 10
  else if 32 ≤ code ∧ code ≤ 126 then .ok code
  else .error (.zsciiDecode code)

/-- Go `zsciiDecoder` state (minus the constant alphabet set and the
expander, which is passed to `readRune` explicitly). -/
structure ZsciiDecoder where
  r : ZCharReader
  abbv : List Nat
  output : Bool
  err : Option DecErr
deriving DecidableEq

/-- Record an error: the deferred `if err != nil { zd.err = err }`. -/
def decFail (d : ZsciiDecoder) (e : DecErr) : Except DecErr Nat × ZsciiDecoder :=
  (.error e, { d with err := some e })

/-- Loop variant for the shift loop: every successful `zcharReadByte`
strictly decreases it. -/
def rMeasure (z : ZCharReader) : Nat :=
  2 * z.input.length + (if z.i = 1 then 2 else if z.i = 2 then 1 else 0)

theorem zcharReadByte_ok_measure (z : ZCharReader) (b : Nat) (z2 : ZCharReader)
    (h : zcharReadByte z = (.ok b, z2)) : rMeasure z2 < rMeasure z := by
  unfold zcharReadByte at h
  rcases hz : z.err with _ | e <;> rw [hz] at h
  · simp only at h
    by_cases h0 : z.i = 0
    · rw [if_pos h0] at h
      rcases hin : z.input with _ | ⟨b0, tail⟩ <;> rw [hin] at h
      · simp at h
      · rcases tail with _ | ⟨b1, rest⟩
        · rw [Prod.mk.injEq] at h
          rw [← h.2, rMeasure, rMeasure, hin, h0]
          simp
        · rw [Prod.mk.injEq] at h
          rw [← h.2, rMeasure, rMeasure, hin, h0]
          simp
          omega
    · rw [if_neg h0] at h
      by_cases h1 : z.i = 1
      · rw [if_pos h1] at h
        rw [Prod.mk.injEq] at h
        rw [← h.2, rMeasure, rMeasure, h1]
        simp
      · rw [if_neg h1] at h
        by_cases h2 : z.i = 2
        · rw [if_pos h2] at h
          rw [Prod.mk.injEq] at h
          rw [← h.2, rMeasure, rMeasure, h2]
          by_cases hp : z.p0 < 128 <;> simp [hp]
        · rw [if_neg h2] at h
          simp at h
  · simp at h

/-- The Go shift loop inside `ReadRune`:

```
for z == 4 || z == 5 {
    alphabet = int(z - 3)
    z, err = zd.r.ReadByte()
    if err != nil { return }
}
```

Returns the first non-shift character together with the selected
alphabet (the last shift wins). -/
def shiftLoop (r : ZCharReader) (z alphabet : Nat) : Except ZErr (Nat × Nat) × ZCharReader :=
  if z = 4 ∨ z = 5 then
    match hr : zcharReadByte r with
    | (.ok z2, r2) => shiftLoop r2 z2 (z - 3)
    | (.error e, r2) => (.error e, r2)
  else (.ok (z, alphabet), r)
termination_by rMeasure r
decreasing_by exact zcharReadByte_ok_measure r z2 r2 hr

/-- Go `zsciiDecoder.ReadRune` over the standard alphabet set, with the
expander `exp` as an optional capability. -/
def readRune (exp : Option (Nat → Except DecErr (List Nat)))
    (d : ZsciiDecoder) : Except DecErr Nat × ZsciiDecoder :=
  match d.err with
  | some e => (.error e, d)
  | none =>
    match d.abbv with
    | a :: rest => (.ok a, { d with abbv := rest })
    | [] =>
      match zcharReadByte d.r with
      | (.error e, r2) => decFail { d with r := r2 } (ofZErr e)
      | (.ok z, r2) =>
        if z = 0 then (.ok 32, { d with r := r2 })
        else if z = 1 ∨ z = 2 ∨ z = 3 then
          match exp with
          | none => decFail { d with r := r2 } .abbrevNotAllowed
          | some f =>
            match zcharReadByte r2 with
            | (.error e, r3) => decFail { d with r := r3 } (ofZErr e)
            | (.ok x, r3) =>
              match f (32 * (z - 1) + x) with
              | .error e => decFail { d with r := r3 } e
              | .ok [] => decFail { d with r := r3 } .panicEmptyExpansion
              | .ok (a :: rest) => (.ok a, { d with r := r3, abbv := rest })
        else if z = 4 ∨ z = 5 then
          match shiftLoop r2 z 0 with
          | (.error e, r3) => decFail { d with r := r3 } (ofZErr e)
          | (.ok (z2, alphabet), r3) =>
            if alphabet = 2 ∧ z2 = 6 then
              match zcharReadByte r3 with
              | (.error e, r4) => decFail { d with r := r4 } (ofZErr e)
              | (.ok x1, r4) =>
                match zcharReadByte r4 with
                | (.error e, r5) => decFail { d with r := r5 } (ofZErr e)
                | (.ok x2, r5) =>
                  match zsciiLookup (x1 * 32 + x2) d.output with
                  | .ok c => (.ok c, { d with r := r5 })
                  | .error e => decFail { d with r := r5 } e
            else if 6 ≤ z2 ∧ z2 ≤ 31 then
              (.ok (alphaLookup alphabet (z2 - 6)), { d with r := r3 })
            else decFail { d with r := r3 } .panicIndex
        else if 6 ≤ z ∧ z ≤ 31 then (.ok (alphaLookup 0 (z - 6)), { d with r := r2 })
        else decFail { d with r := r2 } .panicIndex

/-- Go `decodeString`'s accumulation loop: read runes until an error;
`io.EOF` from the source is a successful terminator.  `none` = fuel ran
out. -/
def decodeStringLoop (exp : Option (Nat → Except DecErr (List Nat))) :
    ZsciiDecoder → Nat → List Nat → Option (Except DecErr (List Nat))
  | _, 0, _ => none
  | d, fuel + 1, acc =>
    match readRune exp d with
    | (.ok c, d2) => decodeStringLoop exp d2 fuel (acc ++ [c])
    | (.error .srcEof, _) => some (.ok acc)
    | (.error e, _) => some (.error e)

/-- Go `decodeString` over a byte stream. -/
def decodeString (bytes : List Nat) (output : Bool)
    (exp : Option (Nat → Except DecErr (List Nat))) (fuel : Nat) :
    Option (Except DecErr (List Nat)) :=
  decodeStringLoop exp { r := zcharNew bytes, abbv := [], output := output, err := none } fuel []

/-- Go `Machine.Unabbreviate` (north/machine.go): decode the Z-string at
twice the abbreviation-table word, with *no* expander:

```
entryWord := m.loadWord(m.abbreviationTableAddress() + Address(entry)*2)
r, err := m.MemoryReader(Address(entryWord) * 2)
return decodeString(r, StandardAlphabetSet, true, nil)
```
-/
def unabbreviate (mem : List Nat) (entry : Nat) (fuel : Nat) :
    Option (Except DecErr (List Nat)) :=
  let entryWord := loadWord mem (loadWord mem 0x18 + entry * 2)
  decodeString (mem.drop (entryWord * 2)) true none fuel

theorem readRune_no_expander_abbrev (d : ZsciiDecoder) (z : Nat) (r2 : ZCharReader)
    (herr : d.err = none) (habbv : d.abbv = [])
    (hz1 : zcharReadByte d.r = (.ok z, r2)) (hz : z = 1 ∨ z = 2 ∨ z = 3) :
    readRune none d =
      (.error .abbrevNotAllowed, { d with r := r2, err := some .abbrevNotAllowed }) := by
  rcases hz with h | h | h <;> subst h <;>
    simp [readRune, herr, habbv, hz1, decFail]

/-- C9: (i) when the decoder reads a Z-character `z ∈ {1,2,3}` followed
by `x` and an expander is present, it expands abbreviation index
`32·(z−1)+x` through it and returns the expansion's first rune, queueing
the rest; (ii) a queued rune is emitted one per read; (iii) with no
expander, a `z ∈ {1,2,3}` is the hard `abbrevNotAllowed` error; and
(iv) `Machine.Unabbreviate` decodes the Z-string at twice the
abbreviation-table word with *no* expander, so an abbreviation whose own
Z-string starts with an abbreviation code always fails to decode. -/
theorem abbreviation_expansion_and_unabbreviate :
    (∀ (f : Nat → Except DecErr (List Nat)) (d : ZsciiDecoder) (z x a : Nat)
        (r2 r3 : ZCharReader) (rest : List Nat),
        d.err = none → d.abbv = [] →
        zcharReadByte d.r = (.ok z, r2) → (z = 1 ∨ z = 2 ∨ z = 3) →
        zcharReadByte r2 = (.ok x, r3) →
        f (32 * (z - 1) + x) = .ok (a :: rest) →
        readRune (some f) d = (.ok a, { d with r := r3, abbv := rest }))
    ∧ (∀ (exp : Option (Nat → Except DecErr (List Nat))) (d : ZsciiDecoder)
        (a : Nat) (rest : List Nat),
        d.err = none → d.abbv = a :: rest →
        readRune exp d = (.ok a, { d with abbv := rest }))
    ∧ (∀ (d : ZsciiDecoder) (z : Nat) (r2 : ZCharReader),
        d.err = none → d.abbv = [] →
        zcharReadByte d.r = (.ok z, r2) → (z = 1 ∨ z = 2 ∨ z = 3) →
        readRune none d =
          (.error .abbrevNotAllowed, { d with r := r2, err := some .abbrevNotAllowed }))
    ∧ (∀ (mem : List Nat) (entry fuel z : Nat) (r2 : ZCharReader),
        zcharReadByte (zcharNew
            (mem.drop (loadWord mem (loadWord mem 0x18 + entry * 2) * 2)))
          = (.ok z, r2) →
        (z = 1 ∨ z = 2 ∨ z = 3) →
        unabbreviate mem entry (fuel + 1) = some (.error .abbrevNotAllowed)) := by
  refine ⟨?_, ?_, ?_, ?_⟩
  · intro f d z x a r2 r3 rest herr habbv hz1 hz hz2 hf
    rcases hz with h | h | h <;> subst h <;> norm_num at hf <;>
      simp [readRune, herr, habbv, hz1, hz2, hf]
  · intro exp d a rest herr habbv
    simp [readRune, herr, habbv]
  · intro d z r2 herr habbv hz1 hz
    exact readRune_no_expander_abbrev d z r2 herr habbv hz1 hz
  · intro mem entry fuel z r2 hz1 hz
    have h := readRune_no_expander_abbrev
      { r := zcharNew (mem.drop (loadWord mem (loadWord mem 0x18 + entry * 2) * 2)),
        abbv := [], output := true, err := none } z r2 rfl rfl hz1 hz
    simp only [unabbreviate, decodeString, decodeStringLoop, h]

/-- A story whose abbreviation table (header word `0x18` = 32) maps entry
0 to Z-word address 17, i.e. byte address 34, where the Z-string begins
with the Z-character 1 (an abbreviation code). -/
def memNestedAbbrev : List Nat :=
  ((((List.replicate 36 0).set 25 32).set 33 17).set 34 4).set 35 160

/-- Witness for `abbreviation_expansion_and_unabbreviate`: the stream
`[0x04, 0xA0]` decodes to Z-characters 1, 5; with a constant expander
returning runes `[100, 101]` the decoder consults entry `32·0+5` and
emits 100 with 101 queued; a queued rune is emitted on the next read;
with no expander the same stream is the abbreviation error; and on
`memNestedAbbrev`, `Unabbreviate 0` fails with the abbreviation error. -/
theorem abbreviation_expansion_and_unabbreviate_witness :
    readRune (some (fun _ => .ok [100, 101]))
        { r := zcharNew [4, 160], abbv := [], output := true, err := none }
      = (.ok 100, { r := { input := [], p0 := 4, p1 := 160, i := 2, err := none },
                    abbv := [101], output := true, err := none })
    ∧ readRune none { r := zcharNew [], abbv := [7, 8], output := true, err := none }
      = (.ok 7, { r := zcharNew [], abbv := [8], output := true, err := none })
    ∧ readRune none { r := zcharNew [4, 160], abbv := [], output := true, err := none }
      = (.error .abbrevNotAllowed,
         { r := { input := [], p0 := 4, p1 := 160, i := 1, err := none },
           abbv := [], output := true, err := some .abbrevNotAllowed })
    ∧ unabbreviate memNestedAbbrev 0 1 = some (.error .abbrevNotAllowed) := by
  refine ⟨?_, ?_, ?_, ?_⟩
  · exact abbreviation_expansion_and_unabbreviate.1 (fun _ => .ok [100, 101])
      { r := zcharNew [4, 160], abbv := [], output := true, err := none }
      1 5 100 { input := [], p0 := 4, p1 := 160, i := 1, err := none }
      { input := [], p0 := 4, p1 := 160, i := 2, err := none } [101]
      rfl rfl rfl (Or.inl rfl) rfl rfl
  · exact abbreviation_expansion_and_unabbreviate.2.1 none
      { r := zcharNew [], abbv := [7, 8], output := true, err := none } 7 [8] rfl rfl
  · exact abbreviation_expansion_and_unabbreviate.2.2.1
      { r := zcharNew [4, 160], abbv := [], output := true, err := none }
      1 { input := [], p0 := 4, p1 := 160, i := 1, err := none } rfl rfl rfl (Or.inl rfl)
  · exact abbreviation_expansion_and_unabbreviate.2.2.2 memNestedAbbrev 0 0
      1 { input := [], p0 := 4, p1 := 160, i := 1, err := none } rfl (Or.inl rfl)

/-! ## Dictionary, word splitting and tokenise (src/unnamed/part_004)

Input runes are modelled by their code points; the dictionary is reduced
to what `tokenise` consumes of it: the separator list, the key → entry
address map (`Words`, an association list; a missing key is the Go map's
zero value 0) and the key width (`WordSize`).  `lex`'s key truncation
uses the *byte* length of the UTF-8 string in Go; inputs here are
modelled as single-byte (ZSCII/ASCII) runes, for which the two lengths
agree — the opcodes feed `tokenise` bytes read from memory. -/

/-- Go `lexWord`. -/
structure LexWord where
  start : Nat
  stop : Nat
  word : Nat
deriving DecidableEq

instance : Inhabited LexWord := ⟨⟨0, 0, 0⟩⟩

/-- The parts of Go `dictionary` that `tokenise` uses. -/
structure Dict where
  separators : List Nat
  words : List (List Nat × Nat)
  wordSize : Nat

/-- Go map lookup `dict.Words[word]` (0 when absent). -/
def lookupWord : List (List Nat × Nat) → List Nat → Nat
  | [], _ => 0
  | (k2, a) :: rest, k => if k2 = k then a else lookupWord rest k

/-- Go `splitWords` loop: `i` is the index of the list head within the
original input, `start`/`inWord` the scanner state, `acc` the emitted
spans.  (Go initializes `start` to −1, but it is only read after being
set, so 0 serves.)  Whitespace is space or tab; each separator is a
one-character token; runs of other characters form a token. -/
def splitWordsGo (sep : List Nat) : List Nat → Nat → Nat → Bool → List (Nat × Nat) →
    List (Nat × Nat)
  | [], i, start, inWord, acc => if inWord then acc ++ [(start, i)] else acc
  | c :: rest, i, start, inWord, acc =>
    if c = 32 ∨ c = 9 then
      splitWordsGo sep rest (i + 1) start false (if inWord then acc ++ [(start, i)] else acc)
    else if sep.contains c then
      splitWordsGo sep rest (i + 1) start false
        ((if inWord then acc ++ [(start, i)] else acc) ++ [(i, i + 1)])
    else if inWord then
      splitWordsGo sep rest (i + 1) start true acc
    else
      splitWordsGo sep rest (i + 1) i true acc

/-- Go `splitWords`. -/
def splitWords (s sep : List Nat) : List (Nat × Nat) := splitWordsGo sep s 0 0 false []

/-- Go `lex`: spans to `lexWord`s, keys truncated to `WordSize` before
dictionary lookup. -/
def lex (input : List Nat) (dict : Dict) : List LexWord :=
  (splitWords input dict.separators).map (fun iv =>
    let w := (input.drop iv.1).take (iv.2 - iv.1)
    let w2 := if dict.wordSize < w.length then w.take dict.wordSize else w
    { start := iv.1, stop := iv.2, word := lookupWord dict.words w2 })

/-- One iteration of `tokenise`'s output loop (Go, for word `k`):

```
if storeZero || words[i].Word != 0 {
    m.storeWord(base+Address(i)*4, Word(words[i].Word))
    m.memory[base+Address(i)*4+2] = byte(words[i].End - words[i].Start)
    if version <= 4 { m.memory[base+Address(i)*4+3] = byte(words[i].Start + 1) }
    else            { m.memory[base+Address(i)*4+3] = byte(words[i].Start + 2) }
}
```
-/
def recordWrite (mem : List Nat) (base v k : Nat) (w : LexWord) (storeZero : Bool) :
    List Nat :=
  if storeZero = true ∨ w.word ≠ 0 then
    let m1 := storeWord mem (base + k * 4) w.word
    let m2 := writeB m1 (base + k * 4 + 2) (w.stop - w.start)
    writeB m2 (base + k * 4 + 3) (w.start + (if v ≤ 4 then 1 else 2))
  else mem

/-- `tokenise`'s output loop over the (truncated) word list. -/
def tokeniseLoop (mem : List Nat) (ws : List LexWord) (base v : Nat) (sz : Bool)
    (k : Nat) : List Nat :=
  match ws with
  | [] => mem
  | w :: rest => tokeniseLoop (recordWrite mem base v k w sz) rest base v sz (k + 1)

/-- The truncated word list `tokenise` writes:
`words = lex(...)`, cut to `maxWords = mem[addr]`. -/
def tokeniseWords (mem input : List Nat) (dict : Dict) (addr : Nat) : List LexWord :=
  let words := lex input dict
  if readB mem addr < words.length then words.take (readB mem addr) else words

/-- Go `tokenise` (part_004): read `maxWords`, truncate, write the count
byte at `addr+1`, then write the 4-byte parse records from `addr+2`. -/
def tokenise (mem input : List Nat) (dict : Dict) (addr : Nat) (storeZero : Bool) :
    List Nat :=
  let words2 := tokeniseWords mem input dict addr
  let mem1 := writeB mem (addr + 1) words2.length
  tokeniseLoop mem1 words2 (addr + 2) (version mem1) storeZero 0

theorem writeB_length (mem : List Nat) (a v : Nat) :
    (writeB mem a v).length = mem.length := by
  simp [writeB]

theorem storeWord_length (mem : List Nat) (a w : Nat) :
    (storeWord mem a w).length = mem.length := by
  simp [storeWord, writeB]

theorem readB_writeB_ne (mem : List Nat) (a b v : Nat) (h : a ≠ b) :
    readB (writeB mem a v) b = readB mem b := by
  simp [readB, writeB, List.getD_eq_getElem?_getD, List.getElem?_set_ne h]

theorem readB_writeB_self (mem : List Nat) (a v : Nat) (h : a < mem.length) :
    readB (writeB mem a v) a = v % 256 := by
  simp [readB, writeB, List.getD_eq_getElem?_getD, List.getElem?_set_self (by simpa using h)]

theorem readB_storeWord_lo (mem : List Nat) (a w : Nat) (h : a < mem.length) :
    readB (storeWord mem a w) a = w % 65536 / 256 := by
  rw [storeWord, readB_writeB_ne _ _ _ _ (by omega), readB_writeB_self _ _ _ h]
  omega

theorem readB_storeWord_hi (mem : List Nat) (a w : Nat) (h : a + 1 < mem.length) :
    readB (storeWord mem a w) (a + 1) = w % 256 := by
  rw [storeWord, readB_writeB_self _ _ _ (by simpa [writeB] using h)]
  omega

theorem readB_storeWord_ne (mem : List Nat) (a w b : Nat) (h1 : b ≠ a) (h2 : b ≠ a + 1) :
    readB (storeWord mem a w) b = readB mem b := by
  rw [storeWord, readB_writeB_ne _ _ _ _ (by omega), readB_writeB_ne _ _ _ _ (by omega)]

theorem recordWrite_length (mem : List Nat) (base v k : Nat) (w : LexWord) (sz : Bool) :
    (recordWrite mem base v k w sz).length = mem.length := by
  rw [recordWrite]
  split
  · simp [writeB, storeWord]
  · rfl

theorem readB_recordWrite_out (mem : List Nat) (base v k : Nat) (w : LexWord)
    (sz : Bool) (b : Nat) (h : b < base + k * 4 ∨ base + k * 4 + 3 < b) :
    readB (recordWrite mem base v k w sz) b = readB mem b := by
  rw [recordWrite]
  split
  · rw [readB_writeB_ne _ _ _ _ (by omega), readB_writeB_ne _ _ _ _ (by omega),
      readB_storeWord_ne _ _ _ _ (by omega) (by omega)]
  · rfl

theorem readB_recordWrite_hit (mem : List Nat) (base v k : Nat) (w : LexWord)
    (sz : Bool) (hw : sz = true ∨ w.word ≠ 0) (hlen : base + k * 4 + 3 < mem.length) :
    readB (recordWrite mem base v k w sz) (base + k * 4) = w.word % 65536 / 256
    ∧ readB (recordWrite mem base v k w sz) (base + k * 4 + 1) = w.word % 256
    ∧ readB (recordWrite mem base v k w sz) (base + k * 4 + 2) = (w.stop - w.start) % 256
    ∧ readB (recordWrite mem base v k w sz) (base + k * 4 + 3)
        = (w.start + (if v ≤ 4 then 1 else 2)) % 256 := by
  rw [recordWrite, if_pos hw]
  refine ⟨?_, ?_, ?_, ?_⟩
  · rw [readB_writeB_ne _ _ _ _ (by omega), readB_writeB_ne _ _ _ _ (by omega),
      readB_storeWord_lo _ _ _ (by omega)]
  · rw [readB_writeB_ne _ _ _ _ (by omega), readB_writeB_ne _ _ _ _ (by omega),
      readB_storeWord_hi _ _ _ (by simpa [storeWord, writeB] using (by omega : base + k * 4 + 1 < mem.length))]
  · rw [readB_writeB_ne _ _ _ _ (by omega),
      readB_writeB_self _ _ _ (by simp [storeWord, writeB]; omega)]
  · rw [readB_writeB_self _ _ _ (by simp [storeWord, writeB]; omega)]

theorem tokeniseLoop_length (ws : List LexWord) (mem : List Nat) (base v : Nat)
    (sz : Bool) (k : Nat) :
    (tokeniseLoop mem ws base v sz k).length = mem.length := by
  induction ws generalizing mem k with
  | nil => rfl
  | cons w rest ih =>
    rw [tokeniseLoop, ih, recordWrite_length]

theorem tokeniseLoop_preserve (ws : List LexWord) (mem : List Nat) (base v : Nat)
    (sz : Bool) (k a : Nat) (h : a < base + k * 4) :
    readB (tokeniseLoop mem ws base v sz k) a = readB mem a := by
  induction ws generalizing mem k with
  | nil => rfl
  | cons w rest ih =>
    rw [tokeniseLoop, ih _ (k + 1) (by omega),
      readB_recordWrite_out _ _ _ _ _ _ _ (Or.inl h)]

theorem tokeniseLoop_spec (ws : List LexWord) (mem : List Nat) (base v : Nat)
    (sz : Bool) (k j : Nat) (hj : j < ws.length)
    (hlen : base + (k + j) * 4 + 3 < mem.length) :
    ((sz = true ∨ (ws.getD j default).word ≠ 0) →
      readB (tokeniseLoop mem ws base v sz k) (base + (k + j) * 4)
          = (ws.getD j default).word % 65536 / 256
      ∧ readB (tokeniseLoop mem ws base v sz k) (base + (k + j) * 4 + 1)
          = (ws.getD j default).word % 256
      ∧ readB (tokeniseLoop mem ws base v sz k) (base + (k + j) * 4 + 2)
          = ((ws.getD j default).stop - (ws.getD j default).start) % 256
      ∧ readB (tokeniseLoop mem ws base v sz k) (base + (k + j) * 4 + 3)
          = ((ws.getD j default).start + (if v ≤ 4 then 1 else 2)) % 256)
    ∧ (sz = false → (ws.getD j default).word = 0 →
      ∀ c, c ≤ 3 →
        readB (tokeniseLoop mem ws base v sz k) (base + (k + j) * 4 + c)
          = readB mem (base + (k + j) * 4 + c)) := by
  induction ws generalizing mem k j with
  | nil => simp at hj
  | cons w rest ih =>
    cases j with
    | zero =>
      constructor
      · intro hw
        simp only [List.getD_cons_zero] at hw ⊢
        rw [tokeniseLoop]
        have hpres : ∀ c, c ≤ 3 →
            readB (tokeniseLoop (recordWrite mem base v k w sz) rest base v sz (k + 1))
                (base + (k + 0) * 4 + c)
              = readB (recordWrite mem base v k w sz) (base + (k + 0) * 4 + c) := by
          intro c hc
          exact tokeniseLoop_preserve rest _ base v sz (k + 1) _ (by omega)
        have hhit := readB_recordWrite_hit mem base v k w sz hw (by omega)
        have e0 : base + (k + 0) * 4 = base + k * 4 := by omega
        have e1 : base + (k + 0) * 4 + 1 = base + k * 4 + 1 := by omega
        have e2 : base + (k + 0) * 4 + 2 = base + k * 4 + 2 := by omega
        have e3 : base + (k + 0) * 4 + 3 = base + k * 4 + 3 := by omega
        refine ⟨?_, ?_, ?_, ?_⟩
        · rw [show base + (k + 0) * 4 = base + (k + 0) * 4 + 0 by omega] at *
          rw [hpres 0 (by omega)]
          rw [show base + (k + 0) * 4 + 0 = base + k * 4 by omega]
          exact hhit.1
        · rw [hpres 1 (by omega), e1]
          exact hhit.2.1
        · rw [hpres 2 (by omega), e2]
          exact hhit.2.2.1
        · rw [hpres 3 (by omega), e3]
          exact hhit.2.2.2
      · intro hsz hw c hc
        simp only [List.getD_cons_zero] at hw
        subst hsz
        have hfalse : recordWrite mem base v k w false = mem := by
          unfold recordWrite
          rw [if_neg (by simp [hw])]
        rw [tokeniseLoop, hfalse,
          tokeniseLoop_preserve rest _ base v false (k + 1) _ (by omega)]
    | succ j2 =>
      have hj2 : j2 < rest.length := by simpa using hj
      have e : k + (j2 + 1) = (k + 1) + j2 := by omega
      have h2 := ih (recordWrite mem base v k w sz) (k + 1) j2 hj2
        (by rw [recordWrite_length]; omega)
      constructor
      · intro hw
        simp only [List.getD_cons_succ] at hw ⊢
        rw [tokeniseLoop, e]
        exact h2.1 hw
      · intro hsz hw c hc
        simp only [List.getD_cons_succ] at hw
        rw [tokeniseLoop, e, h2.2 hsz hw c hc,
          readB_recordWrite_out _ _ _ _ _ _ _ (by right; omega)]

/-- C3 counterexample: a version-4 story (`mem[0] = 4`).  Tokenising the
input `"ab"` (runes `[97, 98]`, found in the dictionary at address 100)
with `out_addr = 1` writes the parse record at bytes 3–6; the claim says
the start-position byte (byte 6) is `start + 2 = 2` for version 4 and
later, but the code writes `start + 1 = 1` (it groups version 4 with
versions 1–3, matching its own `read` opcode, which stores the typed
text at offset 1 for versions up to 4). -/
theorem tokenise_v4_start_position_counterexample :
    version [4, 2, 9, 9, 9, 9, 9, 9, 9, 9, 9, 9] = 4
    ∧ readB (tokenise [4, 2, 9, 9, 9, 9, 9, 9, 9, 9, 9, 9] [97, 98]
        ⟨[], [([97, 98], 100)], 6⟩ 1 true) 4 = 100
    ∧ readB (tokenise [4, 2, 9, 9, 9, 9, 9, 9, 9, 9, 9, 9] [97, 98]
        ⟨[], [([97, 98], 100)], 6⟩ 1 true) 6 = 1
    ∧ (1 : Nat) ≠ 0 + 2 := by
  refine ⟨by decide, by decide, ?_, by decide⟩
  decide

/-- C3 (amended): for every call of `tokenise(input, dict, out_addr,
store_zero)` and every written token `j`, the 4-byte parse record at
`out_addr + 2 + 4·j` holds the dictionary word address (0 if not found,
big-endian), then a length byte, then a start-position byte equal to the
token's start offset plus 1 for versions **1–4** and plus 2 for versions
**5 and later**; when `store_zero` is false, a record whose word was not
found is left unchanged; and the count byte at `out_addr + 1` is the
number of (truncated) tokens. -/
theorem tokenise_parse_records (mem input : List Nat) (dict : Dict) (addr : Nat)
    (sz : Bool) (j : Nat)
    (haddr : 1 ≤ addr)
    (hj : j < (tokeniseWords mem input dict addr).length)
    (hlen : addr + 2 + (tokeniseWords mem input dict addr).length * 4 ≤ mem.length) :
    readB (tokenise mem input dict addr sz) (addr + 1)
      = (tokeniseWords mem input dict addr).length % 256
    ∧ ((sz = true ∨ ((tokeniseWords mem input dict addr).getD j default).word ≠ 0) →
        readB (tokenise mem input dict addr sz) (addr + 2 + j * 4)
          = ((tokeniseWords mem input dict addr).getD j default).word % 65536 / 256
        ∧ readB (tokenise mem input dict addr sz) (addr + 2 + j * 4 + 1)
          = ((tokeniseWords mem input dict addr).getD j default).word % 256
        ∧ readB (tokenise mem input dict addr sz) (addr + 2 + j * 4 + 2)
          = (((tokeniseWords mem input dict addr).getD j default).stop
              - ((tokeniseWords mem input dict addr).getD j default).start) % 256
        ∧ readB (tokenise mem input dict addr sz) (addr + 2 + j * 4 + 3)
          = (((tokeniseWords mem input dict addr).getD j default).start
              + (if version mem ≤ 4 then 1 else 2)) % 256)
    ∧ (sz = false → ((tokeniseWords mem input dict addr).getD j default).word = 0 →
        ∀ c, c ≤ 3 →
          readB (tokenise mem input dict addr sz) (addr + 2 + j * 4 + c)
            = readB mem (addr + 2 + j * 4 + c)) := by
  have hws : tokenise mem input dict addr sz
      = tokeniseLoop (writeB mem (addr + 1) (tokeniseWords mem input dict addr).length)
          (tokeniseWords mem input dict addr) (addr + 2)
          (version (writeB mem (addr + 1) (tokeniseWords mem input dict addr).length))
          sz 0 := rfl
  have hver : version (writeB mem (addr + 1) (tokeniseWords mem input dict addr).length)
      = version mem := by
    rw [version, version, readB_writeB_ne _ _ _ _ (by omega)]
  have hlen1 : (writeB mem (addr + 1) (tokeniseWords mem input dict addr).length).length
      = mem.length := writeB_length _ _ _
  have hspec := tokeniseLoop_spec (tokeniseWords mem input dict addr)
    (writeB mem (addr + 1) (tokeniseWords mem input dict addr).length)
    (addr + 2)
    (version (writeB mem (addr + 1) (tokeniseWords mem input dict addr).length))
    sz 0 j hj (by rw [hlen1]; omega)
  simp only [Nat.zero_add] at hspec
  have haddrj : addr + 2 + j * 4 = addr + 2 + j * 4 := rfl
  refine ⟨?_, ?_, ?_⟩
  · rw [hws, tokeniseLoop_preserve _ _ _ _ _ _ _ (by omega),
      readB_writeB_self _ _ _ (by omega)]
  · intro hw
    have h1 := hspec.1 hw
    rw [hws, hver] at *
    exact ⟨h1.1, h1.2.1, h1.2.2.1, h1.2.2.2⟩
  · intro hsz hw c hc
    have h2 := hspec.2 hsz hw c hc
    rw [hws, h2, readB_writeB_ne _ _ _ _ (by omega)]

/-- Witness for `tokenise_parse_records` on a version-4 story: the count
byte is 1, the found-word record's start-position byte is `0 + 1`, and
with `store_zero = false` an unrecognized word leaves its slot byte (9)
unchanged. -/
theorem tokenise_parse_records_witness :
    readB (tokenise [4, 2, 9, 9, 9, 9, 9, 9, 9, 9, 9, 9] [97, 98]
        ⟨[], [([97, 98], 100)], 6⟩ 1 true) 2 = 1
    ∧ readB (tokenise [4, 2, 9, 9, 9, 9, 9, 9, 9, 9, 9, 9] [97, 98]
        ⟨[], [([97, 98], 100)], 6⟩ 1 true) 6 = 1
    ∧ readB (tokenise [4, 2, 9, 9, 9, 9, 9, 9, 9, 9, 9, 9] [97, 98]
        ⟨[], [], 6⟩ 1 false) 6 = 9 := by
  have h := tokenise_parse_records [4, 2, 9, 9, 9, 9, 9, 9, 9, 9, 9, 9] [97, 98]
    ⟨[], [([97, 98], 100)], 6⟩ 1 true 0 (by decide) (by decide) (by decide)
  have h2 := tokenise_parse_records [4, 2, 9, 9, 9, 9, 9, 9, 9, 9, 9, 9] [97, 98]
    ⟨[], [], 6⟩ 1 false 0 (by decide) (by decide) (by decide)
  refine ⟨?_, ?_, ?_⟩
  · have hc := h.1
    norm_num at hc
    rw [hc]
    decide
  · have hc := (h.2.1 (Or.inl rfl)).2.2.2
    norm_num at hc
    rw [hc]
    decide
  · have hc := h2.2.2 rfl (by decide) 3 (by decide)
    norm_num at hc
    rw [hc]
    decide
